import Mathlib

/-
Verification development for msn-social-graph.py.

The program builds, from per-contact MSN chat-log archives, a global
timeline store (per-contact sessions of strictly increasing marker
timestamps plus a global index from timestamp to the sessions recording
it), reconstructs multi-party conversation intervals from any anchor
timestamp, classifies temporal precedence between contacts, and emits
colored introduction-graph edges.

Timestamps in the program are the DateTime attribute strings of the XML
logs, compared with the ordinary string order, so the embedding fixes the
timestamp type to String.  Contacts are identified by their index in the
global contact table (the program keys them by email; the email string
plays no role beyond identity).  Sessions are addressed by a pair
(contact index, zero-based session index); the program addresses session
number i through getSession(i) = sessions[i-1].
-/

set_option maxRecDepth 4096

namespace MsnGraph

/-- Lexicographic comparison of character lists by code point, the
order Python uses on str values. -/
def charsLt : List Char → List Char → Bool
  | [], [] => false
  | [], _ :: _ => true
  | _ :: _, [] => false
  | a :: as, b :: bs => if a < b then true else if b < a then false else charsLt as bs

/-- Python string strict comparison: lexicographic by code point. -/
def postLt (s t : String) : Bool := charsLt s.data t.data

/-- Python string comparison post1 less-or-equal post2. -/
def postLe (s t : String) : Bool := postLt s t || s == t

/-- Side-channel diagnostics: the non-monotonic-timestamp warning of
Session.addPost (line 92) and the missing-first-session warning of the
backfill loop (line 333). -/
inductive StoreDiag where
  | nonMonotonic (post prev : String)
  | blankBackfill (contact : Nat)
deriving DecidableEq

/-- A session reference: (contact index, zero-based session index). -/
abbrev Ref := Nat × Nat

/-- The Timeline Store: the contacts table (each contact a list of
sessions, each session its list of marker posts), the global index
posts mapping each timestamp to the sessions that recorded it in
registration order (lines 69-77), and the diagnostics stream. -/
structure Store where
  contacts : List (List (List String))
  index : List (String × List Ref)
  diags : List StoreDiag
deriving DecidableEq

def Store.empty : Store := ⟨[], [], []⟩

/-- The marker posts of a session, empty for a dangling reference. -/
def postsOf (st : Store) (r : Ref) : List String :=
  (st.contacts.getD r.1 []).getD r.2 []

/-- addGlobalPost (lines 73-77): append the session under the timestamp
key, creating the key at the end of the dict in insertion order. -/
def addGlobalPost : List (String × List Ref) → String → Ref → List (String × List Ref)
  | [], p, r => [(p, [r])]
  | (q, rs) :: rest, p, r =>
    if p = q then (q, rs ++ [r]) :: rest else (q, rs) :: addGlobalPost rest p r

/-- Lookup posts[p]: the sessions registered under timestamp p, in
registration order; empty where the program would raise KeyError. -/
def lookupIndex (st : Store) (p : String) : List Ref :=
  match st.index.find? (fun e => e.1 == p) with
  | some e => e.2
  | none => []

/-- The unconditional append half of Session.addPost (lines 96-97):
append the post to the session and register it in the global index. -/
def Store.push (st : Store) (c i : Nat) (p : String) : Store :=
  let sess := st.contacts.getD c []
  { st with
    contacts := st.contacts.set c (sess.set i (sess.getD i [] ++ [p]))
    index := addGlobalPost st.index p (c, i) }

/-- Session.addPost (lines 90-97): a post not strictly greater than the
last recorded post of the session is dropped with a diagnostic and
nothing is stored; otherwise it is appended and registered globally. -/
def Store.addPost (st : Store) (c i : Nat) (p : String) : Store :=
  match (postsOf st (c, i)).getLast? with
  | some last =>
    if postLe p last then { st with diags := st.diags ++ [StoreDiag.nonMonotonic p last] }
    else st.push c i p
  | none => st.push c i p

def Store.addContact (st : Store) : Store :=
  { st with contacts := st.contacts ++ [[]] }

/-- Contact.reserveSessions (lines 104-107): grow the session list of the
contact to at least the announced count, never shrinking. -/
def Store.reserveSessions (st : Store) (c count : Nat) : Store :=
  let sess := st.contacts.getD c []
  { st with contacts := st.contacts.set c (sess ++ List.replicate (count - sess.length) []) }

/-- Register a fresh contact holding n empty sessions. -/
def withContact (st : Store) (n : Nat) : Store :=
  (st.addContact).reserveSessions st.contacts.length n

/-- Build a concrete store: allocate the contacts of the given shapes
(number of sessions each), then feed the (contact, session, post)
entries through Session.addPost in order, exactly as ingestion would. -/
def mkStore (shape : List Nat) (entries : List (Nat × Nat × String)) : Store :=
  entries.foldl (fun st e => st.addPost e.1 e.2.1 e.2.2) (shape.foldl withContact Store.empty)

/-- session.posts[0], read on a session known to be nonempty. -/
def firstPostOf (st : Store) (r : Ref) : String := (postsOf st r).headD ""

/-- session.posts[-1], read on a session known to be nonempty. -/
def lastPostOf (st : Store) (r : Ref) : String := (postsOf st r).getLastD ""

/-- Python min(l, key = f): the first element with minimal key, none on
an empty list (where Python raises). -/
def argminBy (f : β → String) : List β → Option β
  | [] => none
  | x :: xs => some (xs.foldl (fun best y => if postLt (f y) (f best) then y else best) x)

/-- Python max(l, key = f): the first element with maximal key. -/
def argmaxBy (f : β → String) : List β → Option β
  | [] => none
  | x :: xs => some (xs.foldl (fun best y => if postLt (f best) (f y) then y else best) x)

/-- Phase A of buildConversationByPost (lines 152-162): walk backwards to
the session with the earliest first post reachable through shared first
posts.  Fuel-indexed; none models non-termination or a failed lookup. -/
def phaseA (st : Store) : Nat → Ref → Option Ref
  | 0, _ => none
  | fuel+1, s =>
    let fp := firstPostOf st s
    match argminBy (firstPostOf st) (lookupIndex st fp) with
    | none => none
    | some next =>
      if postLt (firstPostOf st next) fp then phaseA st fuel next
      else some s

/-- The mutable state of the Phase B sweep (lines 164-166): the interval
table in insertion order (contact, firstPost, optional lastPost), the
warned set, the emitted re-entry diagnostics (by contact), the previous
present set and the previous post cursor. -/
structure SweepState where
  intervals : List (Nat × String × Option String)
  warned : List Nat
  reDiags : List Nat
  prevPresent : List Nat
  prevPost : Option String
deriving DecidableEq

def SweepState.init : SweepState := ⟨[], [], [], [], none⟩

/-- The interval recorded for a contact, if any. -/
def intervalOf (s : SweepState) (c : Nat) : Option (String × Option String) :=
  (s.intervals.find? (fun e => e.1 == c)).map (·.2)

def nubFirstGo : List Nat → List Nat → List Nat
  | acc, [] => acc
  | acc, x :: xs => nubFirstGo (if x ∈ acc then acc else acc ++ [x]) xs

/-- Deterministic model of building a Python set by insertion: keep the
first occurrence of each element. -/
def nubFirst (l : List Nat) : List Nat := nubFirstGo [] l

/-- presentContacts at a post (lines 177-179): the contacts owning a
session registered at exactly this timestamp. -/
def presentAt (st : Store) (p : String) : List Nat :=
  nubFirst ((lookupIndex st p).map (·.1))

/-- Handling one added contact (lines 184-198): a contact that already
has an interval is a re-entry, warned at most once and otherwise
ignored; a new contact opens an interval with undefined lastPost. -/
def handleAdded (p : String) (s : SweepState) (c : Nat) : SweepState :=
  match s.intervals.find? (fun e => e.1 == c) with
  | some _ =>
    if c ∈ s.warned then s
    else { s with warned := s.warned ++ [c], reDiags := s.reDiags ++ [c] }
  | none => { s with intervals := s.intervals ++ [(c, p, none)] }

/-- Handling one deleted contact (lines 200-203): close its interval at
the previous cursor if the interval is still open. -/
def handleDeleted (s : SweepState) (c : Nat) : SweepState :=
  { s with
    intervals := s.intervals.map (fun e =>
      if e.1 = c ∧ e.2.2 = none then (e.1, e.2.1, s.prevPost) else e) }

/-- The body of the inner sweep for one post (lines 177-206). -/
def processPost (st : Store) (s : SweepState) (p : String) : SweepState :=
  let present := presentAt st p
  let added := present.filter (fun c => decide (c ∉ s.prevPresent))
  let deleted := s.prevPresent.filter (fun c => decide (c ∉ present))
  let s1 := added.foldl (handleAdded p) s
  let s2 := deleted.foldl handleDeleted s1
  { s2 with prevPost := some p, prevPresent := present }

/-- One post of the inner sweep with the skip guard of line 174: posts
not strictly after the previous cursor are skipped. -/
def stepPost (st : Store) (s : SweepState) (p : String) : SweepState :=
  match s.prevPost with
  | some pp => if postLe p pp then s else processPost st s p
  | none => processPost st s p

/-- Phase B of buildConversationByPost (lines 172-215): sweep the posts
of the current session, then adopt the session with the latest last post
among those sharing the cursor, while it extends strictly further. -/
def phaseB (st : Store) : Nat → Ref → SweepState → Option SweepState
  | 0, _, _ => none
  | fuel+1, sA, s0 =>
    let s1 := (postsOf st sA).foldl (stepPost st) s0
    match s1.prevPost with
    | none => none
    | some pp =>
      match argmaxBy (lastPostOf st) (lookupIndex st pp) with
      | none => none
      | some next =>
        if postLe (lastPostOf st next) (lastPostOf st sA) then some s1
        else phaseB st fuel next s1

/-- A participant triple (line 127). -/
structure Participant where
  contact : Nat
  firstPost : String
  lastPost : String
deriving DecidableEq

/-- A Conversation (lines 129-136): the participants plus the derived
overall first and last posts. -/
structure Conversation where
  participants : List Participant
  firstPost : String
  lastPost : String
deriving DecidableEq

/-- The Conversation constructor (lines 130-136): min and max over the
participants; none on an empty participant list, where Python raises. -/
def mkConversation (pars : List Participant) : Option Conversation :=
  match argminBy Participant.firstPost pars, argmaxBy Participant.lastPost pars with
  | some pmin, some pmax => some ⟨pars, pmin.firstPost, pmax.lastPost⟩
  | _, _ => none

/-- buildConversationByPost (lines 146-230): phase A, phase B, closing of
the still-open intervals at the final cursor, and assembly of the
Conversation.  Returns the conversation together with the re-entry
diagnostics emitted during the sweep; none models any crash or
non-termination of the original. -/
def buildConversationByPost (st : Store) (fuel : Nat) (post : String) :
    Option (Conversation × List Nat) :=
  match (lookupIndex st post).head? with
  | none => none
  | some s0 =>
    match phaseA st fuel s0 with
    | none => none
    | some sA =>
      match phaseB st fuel sA SweepState.init with
      | none => none
      | some s1 =>
        match s1.prevPost with
        | none => none
        | some pp =>
          match mkConversation (s1.intervals.map (fun e => ⟨e.1, e.2.1, (e.2.2).getD pp⟩)) with
          | none => none
          | some conv => some (conv, s1.reDiags)

/-- Contact.isFormerContactTo (lines 112-125): a is former to b iff the
first post of a strictly precedes the first post of b and the
conversation of a starts strictly before the conversation of b. -/
def isFormerContactTo (st : Store) (fuel : Nat) (a b : Nat) : Option Bool :=
  match (postsOf st (a, 0)).head?, (postsOf st (b, 0)).head? with
  | some myFirst, some hisFirst =>
    if postLe hisFirst myFirst then some false
    else
      match buildConversationByPost st fuel myFirst, buildConversationByPost st fuel hisFirst with
      | some (ca, _), some (cb, _) => some (postLt ca.firstPost cb.firstPost)
      | _, _ => none
  | _, _ => none

/-- Edge colors (lines 15-19, 358-373). -/
inductive Color where
  | gray
  | black
  | blue
  | green
deriving DecidableEq

/-- The edge color assignment of the synthesis loop (lines 358-373):
start gray, recolor black when B joined before A left, recolor blue when
B was present when A entered, recolor green when B entered at the very
start of the conversation; each later rule overrides the earlier ones. -/
def edgeColor (firstB lastB firstA lastA convoFirst : String) : Color :=
  let c := Color.gray
  let c := if postLe firstB lastA then Color.black else c
  let c := if postLe firstB firstA && postLe firstA lastB then Color.blue else c
  let c := if firstB = convoFirst then Color.green else c
  c

/-- The same four rules read as a priority chain, first match from the
highest priority downwards; written from the words of the spec to be
compared with edgeColor. -/
def edgeColorPriority (firstB lastB firstA lastA convoFirst : String) : Color :=
  if firstB = convoFirst then Color.green
  else if postLe firstB firstA && postLe firstA lastB then Color.blue
  else if postLe firstB lastA then Color.black
  else Color.gray

/-- One XML element of a chat log, reduced to the attributes the event
loop reads: the tag string, the SessionID attribute (LastSessionID for a
Log element) and the DateTime attribute. -/
structure Event where
  tag : String
  sid : Nat
  post : String
deriving DecidableEq

/-- The loop state of the XML event loop (lines 285-287). -/
structure IngestState where
  prevTag : Option String
  prevPost : Option String
  prevSessionId : Option Nat
deriving DecidableEq

/-- One iteration of the XML event loop (lines 289-320), faithful to the
source including the misspelt retained-tag literal on line 299. -/
def ingestStep (c : Nat) (acc : Store × IngestState) (ev : Event) : Store × IngestState :=
  let (st, s) := acc
  if ev.tag = "Log" then
    (st.reserveSessions c ev.sid, s)
  else if ev.tag ≠ "Join" ∧ ev.tag ≠ "Message" ∧ ev.tag ≠ "Leave" ∧
          ev.tag ≠ "Invitation" ∧ ev.tag ≠ "InvitatationResponse" then
    (st, s)
  else
    let st1 :=
      match s.prevPost, s.prevSessionId with
      | some pp, some psid =>
        if ev.tag = "Leave" ∨ psid ≠ ev.sid then st.addPost c (psid - 1) pp else st
      | _, _ => st
    let commitCurrent := s.prevTag = some "Join" ∨ s.prevSessionId ≠ some ev.sid
    let (st2, newPrevPost) :=
      if commitCurrent then (st1.addPost c (ev.sid - 1) ev.post, (none : Option String))
      else (st1, some ev.post)
    (st2, ⟨some ev.tag, newPrevPost, some ev.sid⟩)

/-- Session Ingestion for one contact (lines 285-324): fold the event
loop over the stream, then commit the final pending post. -/
def ingestContact (st : Store) (c : Nat) (evs : List Event) : Store :=
  let res := evs.foldl (ingestStep c) (st, ⟨none, none, none⟩)
  match res.2.prevPost, res.2.prevSessionId with
  | some pp, some psid => res.1.addPost c (psid - 1) pp
  | _, _ => res.1

/-- The rule set of the spec with the retained-tag literal spelt
InvitationResponse.  Modelled from the spec: section 4.2 consumes event
kinds Join, Message, Leave, Invitation and InvitationResponse, whereas
line 299 of the source tests for the misspelt InvitatationResponse. -/
def ingestStepSpec (c : Nat) (acc : Store × IngestState) (ev : Event) : Store × IngestState :=
  let (st, s) := acc
  if ev.tag = "Log" then
    (st.reserveSessions c ev.sid, s)
  else if ev.tag ≠ "Join" ∧ ev.tag ≠ "Message" ∧ ev.tag ≠ "Leave" ∧
          ev.tag ≠ "Invitation" ∧ ev.tag ≠ "InvitationResponse" then
    (st, s)
  else
    let st1 :=
      match s.prevPost, s.prevSessionId with
      | some pp, some psid =>
        if ev.tag = "Leave" ∨ psid ≠ ev.sid then st.addPost c (psid - 1) pp else st
      | _, _ => st
    let commitCurrent := s.prevTag = some "Join" ∨ s.prevSessionId ≠ some ev.sid
    let (st2, newPrevPost) :=
      if commitCurrent then (st1.addPost c (ev.sid - 1) ev.post, (none : Option String))
      else (st1, some ev.post)
    (st2, ⟨some ev.tag, newPrevPost, some ev.sid⟩)

/-- Session Ingestion as the spec words it, with the correctly spelt
InvitationResponse kind. -/
def ingestContactSpec (st : Store) (c : Nat) (evs : List Event) : Store :=
  let res := evs.foldl (ingestStepSpec c) (st, ⟨none, none, none⟩)
  match res.2.prevPost, res.2.prevSessionId with
  | some pp, some psid => res.1.addPost c (psid - 1) pp
  | _, _ => res.1

/-- The digit characters of n zero-padded to width w, most significant
first.  For n below 10 to the power w this is exactly the digit list the
format directive percent-010d of line 336 produces at w = 10. -/
def padDigits (w n : Nat) : List Char :=
  (List.range w).map (fun k => Char.ofNat (48 + n / 10 ^ (w - 1 - k) % 10))

/-- The string rendering of percent-010d applied to n, for n below 10
to the power 10 (the backfill counter never leaves that range in any
realisable run considered here). -/
def pad10 (n : Nat) : String := ⟨padDigits 10 n⟩

/-- The synthetic placeholder key of line 336. -/
def syntheticKey (n : Nat) : String := "0000-" ++ pad10 n

/-- The backfill loop body (lines 330-338) over an explicit list of
contact indices, threading the blankConvoCounter. -/
def backfillGo : Store → Nat → List Nat → Store
  | st, _, [] => st
  | st, k, c :: rest =>
    if postsOf st (c, 0) = [] then
      let st1 := { st with diags := st.diags ++ [StoreDiag.blankBackfill c] }
      backfillGo (st1.addPost c 0 (syntheticKey k)) (k + 1) rest
    else
      backfillGo st k rest

/-- The post-pass repair (lines 330-338): for every contact whose first
session has no recorded marker, synthesize one placeholder post keyed by
the running blankConvoCounter, with a diagnostic. -/
def backfill (st : Store) : Store :=
  backfillGo st 0 (List.range st.contacts.length)

end MsnGraph

namespace MsnGraph

/-- Scenario store for claim C1: contact 0 (A) with one session of
markers 10, 20, 40, 50 and contact 1 (B) with one session of markers
20, 40, ingested in that order, so 20 and 40 are shared index keys. -/
def store1 : Store :=
  mkStore [1, 1]
    [(0, 0, "10"), (0, 0, "20"), (0, 0, "40"), (0, 0, "50"),
     (1, 0, "20"), (1, 0, "40")]

/-- Counterexample store for claim C2: contact 0 with session markers
10, 100 and contact 1 with session markers 7, 100.  The two sessions
share the timestamp 100, so all four timestamps belong to one logical
conversation; in particular 7 and 100 are markers of one and the same
session of contact 1. -/
def store2 : Store :=
  mkStore [1, 1]
    [(0, 0, "10"), (0, 0, "100"), (1, 0, "07"), (1, 0, "100")]

/-- Scenario store for claim C4: contact 0 (M) sweeps 10, 20, 40, 50,
60, 70; contact 1 (A) has markers 20, 40, 60, so A leaves the present
set after 40 (closing its interval at 40) and re-enters at 60. -/
def store4 : Store :=
  mkStore [1, 1]
    [(0, 0, "10"), (0, 0, "20"), (0, 0, "40"), (0, 0, "50"),
     (0, 0, "60"), (0, 0, "70"),
     (1, 0, "20"), (1, 0, "40"), (1, 0, "60")]

/-- Base store for claims C6 and C7 before the repair pass: contact 0
(R) has real markers 5 and 6 in session 1, contact 1 (C) has an empty
session 1. -/
def store6base : Store :=
  mkStore [1, 1] [(0, 0, "5"), (0, 0, "6")]

/-- The backfilled store of claims C6: contact 1 received the first
synthetic placeholder key. -/
def store6 : Store := backfill store6base

/-- Base store for the C7 counterexample: contacts 0 and 1 both have an
empty session 1, contact 2 has a real marker 5. -/
def store7base : Store :=
  mkStore [1, 1, 1] [(2, 0, "5")]

def store7 : Store := backfill store7base

/-- Two timestamps lie in one session of the store. -/
def inSameSession (st : Store) (t1 t2 : String) : Prop :=
  ∃ r : Ref, t1 ∈ postsOf st r ∧ t2 ∈ postsOf st r

/-- Two timestamps belong to the same logical conversation: they are
connected by a chain of sessions sharing timestamps.  This is the
transitive closure of co-occurrence in a session, the only structural
notion of conversation available before reconstruction. -/
def sameLogicalConversation (st : Store) : String → String → Prop :=
  Relation.ReflTransGen (inSameSession st)

/-- Well-formedness of a Timeline Store, as ingestion establishes it:
every index entry lists only sessions that contain its timestamp, and
every post of every session is registered in the index under itself. -/
abbrev WF (st : Store) : Prop :=
  (∀ e ∈ st.index, ∀ r ∈ e.2, e.1 ∈ postsOf st r) ∧
  (∀ c, c < st.contacts.length → ∀ i, i < (st.contacts.getD c []).length →
    ∀ p ∈ postsOf st (c, i), (c, i) ∈ lookupIndex st p)

/-- The previous-post cursor, when set, always holds a timestamp that
is present in the global index. -/
def PrevOk (st : Store) (s : SweepState) : Prop :=
  ∀ p, s.prevPost = some p → lookupIndex st p ≠ []

/-- The warned set counts the re-entry diagnostics: each contact has
exactly one diagnostic if warned and none otherwise. -/
def DiagInv (s : SweepState) : Prop :=
  ∀ c : Nat, s.reDiags.count c = if c ∈ s.warned then 1 else 0

/-- The number of blank first sessions among the contacts before c:
the value of blankConvoCounter when the backfill loop reaches c. -/
def blankIdx (st : Store) (c : Nat) : Nat :=
  (List.range c).countP (fun x => decide (postsOf st (x, 0) = []))

/-- A string whose first character is strictly above the digit zero;
every real MSN DateTime string (year 1000 or later) is of this shape. -/
def startsAboveZeroB (t : String) : Bool :=
  match t.data with
  | [] => false
  | ch :: _ => decide ('0' < ch)

/-- Check that a marker sequence is strictly increasing, in the string
order the program uses. -/
def strictIncrB : List String → Bool
  | [] => true
  | [_] => true
  | a :: b :: t => postLt a b && strictIncrB (b :: t)

/-- Failing event stream for claim C8: a Log element announcing two
sessions, a Message opening session 1, then an InvitationResponse in
session 2, which by rule 3 (session id changed) should be committed as
the first marker of session 2. -/
def c8events : List Event :=
  [⟨"Log", 2, ""⟩, ⟨"Message", 1, "10"⟩, ⟨"InvitationResponse", 2, "20"⟩]

end MsnGraph

namespace MsnGraph

theorem listGetD_of_len_le {γ : Type} : ∀ (l : List γ) (n : Nat) (d : γ),
    l.length ≤ n → l.getD n d = d
  | [], _, _, _ => rfl
  | _ :: _, 0, _, h => by simp at h
  | _ :: l, n + 1, d, h => listGetD_of_len_le l n d (by simpa using h)

theorem listSet_of_len_le {γ : Type} : ∀ (l : List γ) (n : Nat) (a : γ),
    l.length ≤ n → l.set n a = l
  | [], _, _, _ => rfl
  | _ :: _, 0, _, h => by simp at h
  | x :: l, n + 1, a, h => by
    simp only [List.set]
    rw [listSet_of_len_le l n a (by simpa using h)]

theorem listGetD_set_self {γ : Type} : ∀ (l : List γ) (n : Nat) (a d : γ),
    n < l.length → (l.set n a).getD n d = a
  | [], _, _, _, h => by simp at h
  | _ :: _, 0, _, _, _ => rfl
  | _ :: l, n + 1, a, d, h => listGetD_set_self l n a d (by simpa using h)

theorem listGetD_set_ne {γ : Type} : ∀ (l : List γ) (m n : Nat) (a d : γ),
    m ≠ n → (l.set m a).getD n d = l.getD n d
  | [], _, _, _, _, _ => rfl
  | _ :: _, 0, 0, _, _, h => absurd rfl h
  | _ :: _, 0, _ + 1, _, _, _ => rfl
  | _ :: _, _ + 1, 0, _, _, _ => rfl
  | _ :: l, m + 1, n + 1, a, d, h =>
    listGetD_set_ne l m n a d (fun hc => h (by rw [hc]))

theorem listSet_getD_self {γ : Type} : ∀ (l : List γ) (n : Nat) (d : γ),
    n < l.length → l.set n (l.getD n d) = l
  | [], _, _, h => by simp at h
  | _ :: _, 0, _, _ => rfl
  | x :: l, n + 1, d, h => by
    simp only [List.getD_cons_succ, List.set]
    rw [listSet_getD_self l n d (by simpa using h)]

theorem headD_mem {γ : Type} {l : List γ} (d : γ) (h : l ≠ []) : l.headD d ∈ l := by
  cases l with
  | nil => exact absurd rfl h
  | cons a t => exact List.mem_cons_self a t

theorem getLastD_mem {γ : Type} : ∀ (l : List γ) (d : γ), l ≠ [] → l.getLastD d ∈ l
  | [], _, h => absurd rfl h
  | [a], _, _ => List.mem_cons_self a []
  | a :: b :: t, d, _ => by
    have := getLastD_mem (b :: t) d (by simp)
    simpa using Or.inr this

theorem head?_mem {γ : Type} {l : List γ} {a : γ} (h : l.head? = some a) : a ∈ l := by
  cases l with
  | nil => simp at h
  | cons y t =>
    have hy : y = a := by simpa using h
    rw [← hy]
    exact List.mem_cons_self y t

theorem find?_append_of_some {γ : Type} (q : γ → Bool) :
    ∀ (l1 l2 : List γ) (x : γ), l1.find? q = some x → (l1 ++ l2).find? q = some x
  | [], _, _, h => by simp at h
  | y :: t, l2, x, h => by
    simp only [List.find?, List.cons_append]
    simp only [List.find?] at h
    cases hq : q y with
    | true => simpa [hq] using h
    | false =>
      rw [hq] at h
      simpa [hq] using find?_append_of_some q t l2 x h

theorem foldl_preserves {σ γ : Type} (P : σ → Prop) (f : σ → γ → σ)
    (hf : ∀ s x, P s → P (f s x)) : ∀ (l : List γ) (s : σ), P s → P (l.foldl f s)
  | [], _, h => h
  | x :: t, s, h => foldl_preserves P f hf t (f s x) (hf s x h)

theorem foldl_nat_mono {σ γ : Type} (g : σ → Nat) (f : σ → γ → σ)
    (hf : ∀ s x, g s ≤ g (f s x)) : ∀ (l : List γ) (s : σ), g s ≤ g (l.foldl f s)
  | [], _ => le_refl _
  | x :: t, s => le_trans (hf s x) (foldl_nat_mono g f hf t (f s x))

theorem foldl_mem {γ : Type} (f : γ → String) :
    ∀ (xs : List γ) (x : γ),
      xs.foldl (fun best y => if postLt (f y) (f best) then y else best) x ∈ x :: xs
  | [], x => List.mem_cons_self x []
  | y :: ys, x => by
    simp only [List.foldl]
    by_cases hc : postLt (f y) (f x) = true
    · rw [if_pos hc]
      exact List.mem_cons_of_mem x (foldl_mem f ys y)
    · rw [if_neg hc]
      rcases List.mem_cons.mp (foldl_mem f ys x) with h | h
      · rw [h]
        exact List.mem_cons_self x _
      · exact List.mem_cons_of_mem x (List.mem_cons_of_mem y h)

theorem foldl_mem_max {γ : Type} (f : γ → String) :
    ∀ (xs : List γ) (x : γ),
      xs.foldl (fun best y => if postLt (f best) (f y) then y else best) x ∈ x :: xs
  | [], x => List.mem_cons_self x []
  | y :: ys, x => by
    simp only [List.foldl]
    by_cases hc : postLt (f x) (f y) = true
    · rw [if_pos hc]
      exact List.mem_cons_of_mem x (foldl_mem_max f ys y)
    · rw [if_neg hc]
      rcases List.mem_cons.mp (foldl_mem_max f ys x) with h | h
      · rw [h]
        exact List.mem_cons_self x _
      · exact List.mem_cons_of_mem x (List.mem_cons_of_mem y h)

theorem argminBy_mem {γ : Type} (f : γ → String) {l : List γ} {b : γ}
    (h : argminBy f l = some b) : b ∈ l := by
  cases l with
  | nil => simp [argminBy] at h
  | cons x xs =>
    simp only [argminBy, Option.some.injEq] at h
    rw [← h]
    exact foldl_mem f xs x

theorem argmaxBy_mem {γ : Type} (f : γ → String) {l : List γ} {b : γ}
    (h : argmaxBy f l = some b) : b ∈ l := by
  cases l with
  | nil => simp [argmaxBy] at h
  | cons x xs =>
    simp only [argmaxBy, Option.some.injEq] at h
    rw [← h]
    exact foldl_mem_max f xs x

theorem argminBy_some {γ : Type} (f : γ → String) {l : List γ} (h : l ≠ []) :
    ∃ b, argminBy f l = some b := by
  cases l with
  | nil => exact absurd rfl h
  | cons x xs => exact ⟨_, rfl⟩

theorem argmaxBy_some {γ : Type} (f : γ → String) {l : List γ} (h : l ≠ []) :
    ∃ b, argmaxBy f l = some b := by
  cases l with
  | nil => exact absurd rfl h
  | cons x xs => exact ⟨_, rfl⟩

theorem mkConversation_ne_nil (pars : List Participant) (h : pars ≠ []) :
    ∃ conv, mkConversation pars = some conv := by
  cases pars with
  | nil => exact absurd rfl h
  | cons x xs => exact ⟨_, rfl⟩

theorem countP_le_countP {γ : Type} (q r : γ → Bool) :
    ∀ (l : List γ), (∀ x ∈ l, q x = true → r x = true) → l.countP q ≤ l.countP r
  | [], _ => le_refl _
  | y :: t, h => by
    have ht := countP_le_countP q r t (fun x hx => h x (List.mem_cons_of_mem y hx))
    simp only [List.countP_cons]
    cases hq : q y with
    | false => cases hr : r y <;> simp <;> omega
    | true =>
      rw [h y (List.mem_cons_self y t) hq]
      simpa using ht

theorem countP_lt_countP {γ : Type} (q r : γ → Bool) :
    ∀ (l : List γ), (∀ x ∈ l, q x = true → r x = true) →
      ∀ x ∈ l, q x = false → r x = true → l.countP q < l.countP r
  | [], _, x, hx, _, _ => by simp at hx
  | y :: t, himp, x, hx, hqx, hrx => by
    have himpt : ∀ z ∈ t, q z = true → r z = true :=
      fun z hz => himp z (List.mem_cons_of_mem y hz)
    simp only [List.countP_cons]
    rcases List.mem_cons.mp hx with rfl | hx
    · rw [hqx, hrx]
      have := countP_le_countP q r t himpt
      simp
      omega
    · have := countP_lt_countP q r t himpt x hx hqx hrx
      cases hq : q y with
      | false => cases hr : r y <;> simp <;> omega
      | true =>
        rw [himp y (List.mem_cons_self y t) hq]
        simp
        omega

theorem mem_nubFirstGo : ∀ (l acc : List Nat) (x : Nat),
    x ∈ nubFirstGo acc l ↔ x ∈ acc ∨ x ∈ l
  | [], acc, x => by simp [nubFirstGo]
  | y :: ys, acc, x => by
    simp only [nubFirstGo]
    rw [mem_nubFirstGo ys _ x]
    by_cases hy : y ∈ acc
    · simp only [if_pos hy, List.mem_cons]
      constructor
      · rintro (h | h)
        · exact Or.inl h
        · exact Or.inr (Or.inr h)
      · rintro (h | rfl | h)
        · exact Or.inl h
        · exact Or.inl hy
        · exact Or.inr h
    · simp only [if_neg hy, List.mem_append, List.mem_singleton, List.mem_cons]
      tauto

theorem mem_nubFirst {l : List Nat} {x : Nat} : x ∈ nubFirst l ↔ x ∈ l := by
  rw [nubFirst, mem_nubFirstGo]
  simp

end MsnGraph

namespace MsnGraph

theorem charsLt_nil_cons (b : Char) (bs : List Char) : charsLt [] (b :: bs) = true := rfl

theorem charsLt_nil (l : List Char) : charsLt l [] = false := by
  cases l <;> rfl

theorem charsLt_cons_iff (a b : Char) (as bs : List Char) :
    charsLt (a :: as) (b :: bs) = true ↔ a < b ∨ (a = b ∧ charsLt as bs = true) := by
  simp only [charsLt]
  rcases lt_trichotomy a b with h | rfl | h
  · simp [h]
  · simp [lt_irrefl]
  · simp [lt_asymm h, h, ne_of_gt h]

theorem charsLt_irrefl : ∀ l : List Char, charsLt l l = false
  | [] => rfl
  | a :: as => by simp [charsLt, lt_irrefl, charsLt_irrefl as]

theorem charsLt_trans : ∀ (l1 l2 l3 : List Char),
    charsLt l1 l2 = true → charsLt l2 l3 = true → charsLt l1 l3 = true
  | _, [], _ => fun h _ => by rw [charsLt_nil] at h; cases h
  | _, _ :: _, [] => fun _ h => by rw [charsLt_nil] at h; cases h
  | [], _ :: _, _ :: _ => fun _ _ => rfl
  | a :: as, b :: bs, c :: cs => fun h1 h2 => by
    rw [charsLt_cons_iff] at h1 h2 ⊢
    rcases h1 with h1 | ⟨rfl, h1⟩
    · rcases h2 with h2 | ⟨rfl, _⟩
      · exact Or.inl (lt_trans h1 h2)
      · exact Or.inl h1
    · rcases h2 with h2 | ⟨rfl, h2⟩
      · exact Or.inl h2
      · exact Or.inr ⟨rfl, charsLt_trans as bs cs h1 h2⟩

theorem charsLt_asymm : ∀ (l1 l2 : List Char),
    charsLt l1 l2 = true → charsLt l2 l1 = false
  | l1, l2, h => by
    cases hr : charsLt l2 l1 with
    | false => rfl
    | true =>
      have := charsLt_trans l1 l2 l1 h hr
      rw [charsLt_irrefl] at this
      cases this

theorem charsLt_connex : ∀ (l1 l2 : List Char),
    charsLt l1 l2 = false → charsLt l2 l1 = false → l1 = l2
  | [], [], _, _ => rfl
  | [], _ :: _, h, _ => by rw [charsLt_nil_cons] at h; cases h
  | _ :: _, [], _, h => by rw [charsLt_nil_cons] at h; cases h
  | a :: as, b :: bs, h1, h2 => by
    rcases lt_trichotomy a b with h | rfl | h
    · have : charsLt (a :: as) (b :: bs) = true := (charsLt_cons_iff a b as bs).mpr (Or.inl h)
      rw [this] at h1
      cases h1
    · have ht1 : charsLt as bs = false := by
        cases hc : charsLt as bs with
        | false => rfl
        | true =>
          have : charsLt (a :: as) (a :: bs) = true :=
            (charsLt_cons_iff a a as bs).mpr (Or.inr ⟨rfl, hc⟩)
          rw [this] at h1
          cases h1
      have ht2 : charsLt bs as = false := by
        cases hc : charsLt bs as with
        | false => rfl
        | true =>
          have : charsLt (a :: bs) (a :: as) = true :=
            (charsLt_cons_iff a a bs as).mpr (Or.inr ⟨rfl, hc⟩)
          rw [this] at h2
          cases h2
      rw [charsLt_connex as bs ht1 ht2]
    · have : charsLt (b :: bs) (a :: as) = true := (charsLt_cons_iff b a bs as).mpr (Or.inl h)
      rw [this] at h2
      cases h2

theorem string_eq_of_data {s t : String} (h : s.data = t.data) : s = t := by
  cases s
  cases t
  exact congrArg String.mk h

theorem postLt_irrefl (s : String) : postLt s s = false := charsLt_irrefl _

theorem postLt_trans {s t u : String} (h1 : postLt s t = true) (h2 : postLt t u = true) :
    postLt s u = true := charsLt_trans _ _ _ h1 h2

theorem postLt_asymm {s t : String} (h : postLt s t = true) : postLt t s = false :=
  charsLt_asymm _ _ h

theorem postLt_connex {s t : String} (h1 : postLt s t = false) (h2 : postLt t s = false) :
    s = t := string_eq_of_data (charsLt_connex _ _ h1 h2)

theorem postLt_ne {s t : String} (h : postLt s t = true) : s ≠ t := by
  intro hc
  rw [hc, postLt_irrefl] at h
  cases h

theorem postLe_iff {s t : String} : postLe s t = true ↔ postLt s t = true ∨ s = t := by
  simp [postLe, Bool.or_eq_true, beq_iff_eq]

theorem postLe_refl (s : String) : postLe s s = true := postLe_iff.mpr (Or.inr rfl)

theorem postLe_false_iff {s t : String} : postLe s t = false ↔ postLt t s = true := by
  constructor
  · intro h
    have hne : postLt s t = false ∧ s ≠ t := by
      rcases Bool.eq_false_iff.mp h with h2
      constructor
      · cases hc : postLt s t with
        | false => rfl
        | true => exact absurd (postLe_iff.mpr (Or.inl hc)) h2
      · intro hc
        exact h2 (postLe_iff.mpr (Or.inr hc))
    cases hc : postLt t s with
    | true => rfl
    | false => exact absurd (postLt_connex hne.1 hc) hne.2
  · intro h
    cases hc : postLe s t with
    | false => rfl
    | true =>
      rcases postLe_iff.mp hc with h2 | rfl
      · rw [postLt_asymm h2] at h
        cases h
      · rw [postLt_irrefl] at h
        cases h

theorem postLt_of_not_le {s t : String} (h : postLe s t = false) : postLt t s = true :=
  postLe_false_iff.mp h

theorem postLe_of_lt {s t : String} (h : postLt s t = true) : postLe s t = true :=
  postLe_iff.mpr (Or.inl h)

theorem postLt_of_le_of_lt {s t u : String} (h1 : postLe s t = true)
    (h2 : postLt t u = true) : postLt s u = true := by
  rcases postLe_iff.mp h1 with h | rfl
  · exact postLt_trans h h2
  · exact h2

theorem postLt_of_lt_of_le {s t u : String} (h1 : postLt s t = true)
    (h2 : postLe t u = true) : postLt s u = true := by
  rcases postLe_iff.mp h2 with h | rfl
  · exact postLt_trans h1 h
  · exact h1

theorem postLe_trans {s t u : String} (h1 : postLe s t = true) (h2 : postLe t u = true) :
    postLe s u = true := by
  rcases postLe_iff.mp h1 with h | rfl
  · exact postLe_of_lt (postLt_of_lt_of_le h h2)
  · exact h2

theorem postsOf_setDiags (st : Store) (d : List StoreDiag) (r : Ref) :
    postsOf { st with diags := d } r = postsOf st r := rfl

theorem postsOf_push_self (st : Store) (c i : Nat) (p : String) :
    postsOf (st.push c i p) (c, i) = postsOf st (c, i) ++ [p] ∨
    postsOf (st.push c i p) (c, i) = postsOf st (c, i) := by
  simp only [Store.push, postsOf]
  by_cases hc : c < st.contacts.length
  · by_cases hi : i < (st.contacts.getD c []).length
    · left
      rw [listGetD_set_self _ _ _ _ (by simpa using hc), listGetD_set_self _ _ _ _ hi]
    · right
      rw [listSet_of_len_le _ _ _ (le_of_not_lt hi), listSet_getD_self _ _ _ hc]
  · right
    rw [listSet_of_len_le _ _ _ (le_of_not_lt hc)]

theorem postsOf_push_self_inbounds (st : Store) (c i : Nat) (p : String)
    (hc : c < st.contacts.length) (hi : i < (st.contacts.getD c []).length) :
    postsOf (st.push c i p) (c, i) = postsOf st (c, i) ++ [p] := by
  simp only [Store.push, postsOf]
  rw [listGetD_set_self _ _ _ _ (by simpa using hc), listGetD_set_self _ _ _ _ hi]

theorem getD_contacts_push_ne (st : Store) (c i : Nat) (p : String) (c2 : Nat) (h : c2 ≠ c) :
    (st.push c i p).contacts.getD c2 [] = st.contacts.getD c2 [] := by
  simp only [Store.push]
  exact listGetD_set_ne _ _ _ _ _ (fun hc => h hc.symm)

theorem postsOf_push_ne (st : Store) (c i : Nat) (p : String) (r : Ref) (h : r.1 ≠ c) :
    postsOf (st.push c i p) r = postsOf st r := by
  simp only [postsOf]
  rw [getD_contacts_push_ne st c i p r.1 h]

theorem getD_contacts_addPost_ne (st : Store) (c i : Nat) (p : String) (c2 : Nat)
    (h : c2 ≠ c) : (st.addPost c i p).contacts.getD c2 [] = st.contacts.getD c2 [] := by
  unfold Store.addPost
  split
  · split
    · rfl
    · exact getD_contacts_push_ne st c i p c2 h
  · exact getD_contacts_push_ne st c i p c2 h

theorem postsOf_addPost_ne (st : Store) (c i : Nat) (p : String) (r : Ref) (h : r.1 ≠ c) :
    postsOf (st.addPost c i p) r = postsOf st r := by
  simp only [postsOf]
  rw [getD_contacts_addPost_ne st c i p r.1 h]

theorem contacts_length_push (st : Store) (c i : Nat) (p : String) :
    (st.push c i p).contacts.length = st.contacts.length := by
  simp [Store.push]

theorem contacts_length_addPost (st : Store) (c i : Nat) (p : String) :
    (st.addPost c i p).contacts.length = st.contacts.length := by
  unfold Store.addPost
  split
  · split
    · rfl
    · exact contacts_length_push st c i p
  · exact contacts_length_push st c i p

theorem strictIncrB_append_last : ∀ (l : List String) (p : String),
    strictIncrB l = true →
    (∀ last, l.getLast? = some last → postLt last p = true) →
    strictIncrB (l ++ [p]) = true
  | [], _, _, _ => rfl
  | [a], p, _, h => by
    have hp : postLt a p = true := h a rfl
    simp [strictIncrB, hp]
  | a :: b :: t, p, hs, h => by
    simp only [strictIncrB, Bool.and_eq_true] at hs
    have htail : strictIncrB ((b :: t) ++ [p]) = true :=
      strictIncrB_append_last (b :: t) p hs.2
        (fun last hl => h last (by rw [List.getLast?_cons_cons]; exact hl))
    simp only [List.cons_append, strictIncrB, Bool.and_eq_true]
    exact ⟨hs.1, htail⟩

theorem postsOf_addPost_blank (st : Store) (c : Nat) (p : String)
    (hc : c < st.contacts.length) (hi : 0 < (st.contacts.getD c []).length)
    (hblank : postsOf st (c, 0) = []) :
    postsOf (st.addPost c 0 p) (c, 0) = [p] := by
  have h1 : (postsOf st (c, 0)).getLast? = none := by rw [hblank]; rfl
  simp only [Store.addPost, h1]
  rw [postsOf_push_self_inbounds st c 0 p hc hi, hblank]
  rfl

end MsnGraph

namespace MsnGraph

theorem strData_append (s t : String) : (s ++ t).data = s.data ++ t.data := by
  cases s
  cases t
  rfl

theorem charsLt_append_left : ∀ (xs as bs : List Char),
    charsLt as bs = true → charsLt (xs ++ as) (xs ++ bs) = true
  | [], _, _, h => h
  | x :: xs, as, bs, h => by
    simp only [List.cons_append, charsLt, if_neg (lt_irrefl x)]
    exact charsLt_append_left xs as bs h

theorem div_mod_mod_pow (n w e : Nat) (h : e < w) :
    n % 10 ^ w / 10 ^ e % 10 = n / 10 ^ e % 10 := by
  rw [← Nat.mod_mul_right_div_self, ← Nat.mod_mul_right_div_self]
  congr 1
  apply Nat.mod_mod_of_dvd
  have h10 : 10 ^ e * 10 = 10 ^ (e + 1) := (pow_succ 10 e).symm
  rw [h10]
  exact pow_dvd_pow 10 (by omega)

theorem padDigits_succ (w n : Nat) :
    padDigits (w + 1) n =
      Char.ofNat (48 + n / 10 ^ w % 10) :: padDigits w (n % 10 ^ w) := by
  unfold padDigits
  rw [List.range_succ_eq_map]
  simp only [List.map_cons, List.map_map]
  congr 1
  apply List.map_congr_left
  intro k hk
  have hkw : k < w := List.mem_range.mp hk
  simp only [Function.comp]
  have harith : w + 1 - 1 - (k + 1) = w - 1 - k := by omega
  rw [harith, div_mod_mod_pow n w (w - 1 - k) (by omega)]

theorem padDigits_mono : ∀ (w n m : Nat), n < m → m < 10 ^ w →
    charsLt (padDigits w n) (padDigits w m) = true
  | 0, n, m, hnm, hm => by
    simp only [pow_zero] at hm
    omega
  | w + 1, n, m, hnm, hm => by
    rw [padDigits_succ, padDigits_succ]
    have hpos : 0 < 10 ^ w := Nat.pos_pow_of_pos w (by omega)
    have hn : n < 10 ^ (w + 1) := lt_trans hnm hm
    have hdn : n / 10 ^ w < 10 := Nat.div_lt_of_lt_mul (by rw [← pow_succ]; exact hn)
    have hdm : m / 10 ^ w < 10 := Nat.div_lt_of_lt_mul (by rw [← pow_succ]; exact hm)
    rw [Nat.mod_eq_of_lt hdn, Nat.mod_eq_of_lt hdm]
    rcases Nat.lt_trichotomy (n / 10 ^ w) (m / 10 ^ w) with hd | hd | hd
    · apply (charsLt_cons_iff _ _ _ _).mpr
      left
      generalize hgn : n / 10 ^ w = dn at hdn hd
      generalize hgm : m / 10 ^ w = dm at hdm hd
      interval_cases dn <;> interval_cases dm <;> first | omega | decide
    · apply (charsLt_cons_iff _ _ _ _).mpr
      right
      refine ⟨by rw [hd], ?_⟩
      have e1 := Nat.div_add_mod n (10 ^ w)
      have e2 := Nat.div_add_mod m (10 ^ w)
      rw [hd] at e1
      exact padDigits_mono w (n % 10 ^ w) (m % 10 ^ w) (by omega) (Nat.mod_lt _ hpos)
    · exfalso
      have e1 := Nat.div_add_mod n (10 ^ w)
      have e2 := Nat.div_add_mod m (10 ^ w)
      have h3 : m % 10 ^ w < 10 ^ w := Nat.mod_lt _ hpos
      have h5 : 10 ^ w * (m / 10 ^ w + 1) ≤ 10 ^ w * (n / 10 ^ w) :=
        Nat.mul_le_mul_left _ (by omega)
      rw [Nat.mul_succ] at h5
      omega

theorem syntheticKey_mono (i j : Nat) (hij : i < j) (hj : j < 10 ^ 10) :
    postLt (syntheticKey i) (syntheticKey j) = true := by
  unfold postLt syntheticKey
  rw [strData_append, strData_append]
  exact charsLt_append_left _ _ _ (padDigits_mono 10 i j hij hj)

theorem syntheticKey_lt_real (k : Nat) (t : String) (h : startsAboveZeroB t = true) :
    postLt (syntheticKey k) t = true := by
  unfold startsAboveZeroB at h
  unfold postLt syntheticKey
  rw [strData_append]
  cases ht : t.data with
  | nil =>
    rw [ht] at h
    simp at h
  | cons ch rest =>
    rw [ht] at h
    simp only [decide_eq_true_eq] at h
    show charsLt ('0' :: ('0' :: '0' :: '0' :: '-' :: (pad10 k).data)) (ch :: rest) = true
    exact (charsLt_cons_iff _ _ _ _).mpr (Or.inl h)

theorem countP_congr_mem {γ : Type} (q r : γ → Bool) :
    ∀ l : List γ, (∀ y ∈ l, q y = r y) → l.countP q = l.countP r
  | [], _ => rfl
  | y :: t, h => by
    simp only [List.countP_cons]
    rw [h y (List.mem_cons_self y t),
      countP_congr_mem q r t (fun z hz => h z (List.mem_cons_of_mem y hz))]

theorem takeWhile_append_of {γ : Type} (p : γ → Bool) :
    ∀ (l1 : List γ) (x : γ) (l2 : List γ), (∀ y ∈ l1, p y = true) → p x = false →
      (l1 ++ x :: l2).takeWhile p = l1
  | [], x, l2, _, hx => by simp [List.takeWhile_cons, hx]
  | y :: t, x, l2, h1, hx => by
    simp only [List.cons_append, List.takeWhile_cons, h1 y (List.mem_cons_self y t), if_true]
    rw [takeWhile_append_of p t x l2 (fun z hz => h1 z (List.mem_cons_of_mem y hz)) hx]

theorem takeWhile_range_ne (c n : Nat) (h : c < n) :
    (List.range n).takeWhile (fun x => x != c) = List.range c := by
  rw [show n = c + (n - c) from by omega, List.range_add,
    show n - c = (n - c - 1) + 1 from by omega, List.range_succ_eq_map]
  simp only [List.map_cons]
  rw [takeWhile_append_of]
  · intro y hy
    have : y < c := List.mem_range.mp hy
    simp only [bne_iff_ne, ne_eq]
    omega
  · simp

theorem backfillGo_not_mem : ∀ (l : List Nat) (st : Store) (k c : Nat), c ∉ l →
    postsOf (backfillGo st k l) (c, 0) = postsOf st (c, 0)
  | [], _, _, _, _ => rfl
  | x :: rest, st, k, c, h => by
    have hx : c ≠ x := fun hc => h (hc ▸ List.mem_cons_self x rest)
    have hrest : c ∉ rest := fun hc => h (List.mem_cons_of_mem x hc)
    simp only [backfillGo]
    split
    · rw [backfillGo_not_mem rest _ _ c hrest]
      exact postsOf_addPost_ne _ _ _ _ _ hx
    · exact backfillGo_not_mem rest st k c hrest

theorem backfillGo_nonblank : ∀ (l : List Nat) (st : Store) (k c : Nat),
    postsOf st (c, 0) ≠ [] →
    postsOf (backfillGo st k l) (c, 0) = postsOf st (c, 0)
  | [], _, _, _, _ => rfl
  | x :: rest, st, k, c, h => by
    simp only [backfillGo]
    by_cases hx : x = c
    · subst hx
      rw [if_neg h]
      exact backfillGo_nonblank rest st k x h
    · split
      · have hpres : postsOf ((({ st with diags := st.diags ++ [StoreDiag.blankBackfill x] }
            : Store).addPost x 0 (syntheticKey k))) (c, 0) = postsOf st (c, 0) :=
          postsOf_addPost_ne _ _ _ _ _ (fun hc => hx hc.symm)
        rw [backfillGo_nonblank rest _ _ c (by rw [hpres]; exact h), hpres]
      · exact backfillGo_nonblank rest st k c h

theorem backfillGo_blank : ∀ (l : List Nat) (st : Store) (k c : Nat),
    l.Nodup → c ∈ l → postsOf st (c, 0) = [] →
    c < st.contacts.length → 0 < (st.contacts.getD c []).length →
    postsOf (backfillGo st k l) (c, 0) =
      [syntheticKey (k + (l.takeWhile (fun x => x != c)).countP
        (fun x => decide (postsOf st (x, 0) = [])))]
  | [], _, _, _, _, hmem, _, _, _ => absurd hmem (by simp)
  | x :: rest, st, k, c, hnd, hmem, hblank, hc, hi => by
    simp only [backfillGo]
    by_cases hx : x = c
    · subst hx
      rw [if_pos hblank]
      have hxrest : x ∉ rest := (List.nodup_cons.mp hnd).1
      rw [backfillGo_not_mem rest _ _ x hxrest]
      rw [postsOf_addPost_blank
        ({ st with diags := st.diags ++ [StoreDiag.blankBackfill x] }) x (syntheticKey k)
        hc hi hblank]
      simp [List.takeWhile_cons]
    · have hmemr : c ∈ rest := by
        rcases List.mem_cons.mp hmem with hce | hce
        · exact absurd hce.symm hx
        · exact hce
      have hndr : rest.Nodup := (List.nodup_cons.mp hnd).2
      have hxrest : x ∉ rest := (List.nodup_cons.mp hnd).1
      have hbne : (x != c) = true := bne_iff_ne.mpr hx
      rw [List.takeWhile_cons, if_pos hbne]
      split
      · rename_i hbx
        set st1 : Store :=
          ({ st with diags := st.diags ++ [StoreDiag.blankBackfill x] } : Store).addPost
            x 0 (syntheticKey k) with hst1
        have hpres : ∀ y : Nat, y ≠ x → postsOf st1 (y, 0) = postsOf st (y, 0) :=
          fun y hy => postsOf_addPost_ne _ _ _ _ _ hy
        have hlen : st1.contacts.length = st.contacts.length :=
          contacts_length_addPost _ _ _ _
        have hgd : st1.contacts.getD c [] = st.contacts.getD c [] :=
          getD_contacts_addPost_ne _ _ _ _ _ (fun hcc => hx hcc.symm)
        rw [backfillGo_blank rest st1 (k + 1) c hndr hmemr
          (by rw [hpres c (fun hcc => hx hcc.symm)]; exact hblank)
          (by rw [hlen]; exact hc) (by rw [hgd]; exact hi)]
        have hcount : (rest.takeWhile (fun y => y != c)).countP
            (fun y => decide (postsOf st1 (y, 0) = [])) =
            (rest.takeWhile (fun y => y != c)).countP
            (fun y => decide (postsOf st (y, 0) = [])) := by
          apply countP_congr_mem
          intro y hy
          have hyr : y ∈ rest := (List.takeWhile_sublist _).subset hy
          have hyx : y ≠ x := fun hyy => hxrest (hyy ▸ hyr)
          rw [hpres y hyx]
        rw [hcount]
        congr 2
        rw [List.countP_cons]
        have hdx : decide (postsOf st (x, 0) = []) = true := by
          simp only [decide_eq_true_eq]
          exact hbx
        rw [hdx]
        simp
        omega
      · rename_i hbx
        rw [backfillGo_blank rest st k c hndr hmemr hblank hc hi]
        congr 2
        rw [List.countP_cons]
        have hdx : decide (postsOf st (x, 0) = []) = false := by
          simp only [decide_eq_false_iff_not]
          exact hbx
        rw [hdx]
        simp

/-- Claim C1: in a Timeline Store holding exactly contacts A (index 0,
single session with markers 10, 20, 40, 50) and B (index 1, single
session with markers 20, 40, the shared timestamps being registered in
the global index for both sessions), reconstructing the conversation
anchored at 10 yields exactly the participants A with interval (10, 50)
and B with interval (20, 40), and a Conversation with firstPost 10 and
lastPost 50. -/
theorem c1_overlapping_conversation :
    buildConversationByPost store1 5 "10" =
      some (⟨[⟨0, "10", "50"⟩, ⟨1, "20", "40"⟩], "10", "50"⟩, []) := by
  decide

/-- Claim C2 counterexample: in store2 the timestamps 07 and 100 are
markers of one and the same session of contact 1, hence anchor posts of
the same logical conversation, yet the two reconstructions disagree
(their overall firstPost differs and their participant intervals
differ), refuting the idempotence claim as stated. -/
theorem c2_counterexample :
    sameLogicalConversation store2 "07" "100" ∧
    buildConversationByPost store2 5 "07" ≠ buildConversationByPost store2 5 "100" := by
  constructor
  · exact Relation.ReflTransGen.single ⟨(1, 0), by decide, by decide⟩
  · decide

/-- Claim C2 amended: two anchor timestamps yield identical
Conversations whenever they resolve to the same left-edge session, that
is, when Phase A started from the first index entry of either anchor
returns the same session; membership in the same logical conversation
alone does not suffice. -/
theorem c2_amended_same_left_edge (st : Store) (fuel : Nat) (t1 t2 : String)
    (s1 s2 : Ref) (h1 : (lookupIndex st t1).head? = some s1)
    (h2 : (lookupIndex st t2).head? = some s2)
    (h3 : phaseA st fuel s1 = phaseA st fuel s2) :
    buildConversationByPost st fuel t1 = buildConversationByPost st fuel t2 := by
  simp only [buildConversationByPost, h1, h2, h3]

/-- Witness for the amended claim C2 at the concrete store of C1. -/
theorem c2_amended_witness :
    (lookupIndex store1 "10").head? = some (0, 0) ∧
    (lookupIndex store1 "20").head? = some (0, 0) ∧
    buildConversationByPost store1 5 "10" = buildConversationByPost store1 5 "20" :=
  ⟨by decide, by decide,
   c2_amended_same_left_edge store1 5 "10" "20" (0, 0) (0, 0) (by decide) (by decide) rfl⟩

/-- Claim C5: for every session, an append attempt of a post not
strictly greater than the last recorded post is rejected, leaving the
contacts table and the global index unchanged and emitting exactly the
non-monotonic diagnostic; and every append attempt preserves strict
increase of the stored marker sequence. -/
theorem c5_monotonicity (st : Store) (c i : Nat) (p last : String) :
    ((postsOf st (c, i)).getLast? = some last → postLe p last = true →
      st.addPost c i p = { st with diags := st.diags ++ [StoreDiag.nonMonotonic p last] }) ∧
    (strictIncrB (postsOf st (c, i)) = true →
      strictIncrB (postsOf (st.addPost c i p) (c, i)) = true) := by
  constructor
  · intro hlast hle
    simp only [Store.addPost, hlast]
    rw [if_pos hle]
  · intro hchain
    cases hlast : (postsOf st (c, i)).getLast? with
    | none =>
      have hnil : postsOf st (c, i) = [] := by simpa using hlast
      simp only [Store.addPost, hlast]
      rcases postsOf_push_self st c i p with h | h
      · rw [h, hnil]
        rfl
      · rw [h]
        exact hchain
    | some last2 =>
      by_cases hle : postLe p last2 = true
      · simp only [Store.addPost, hlast, if_pos hle]
        exact hchain
      · simp only [Store.addPost, hlast, if_neg hle]
        rcases postsOf_push_self st c i p with h | h
        · rw [h]
          apply strictIncrB_append_last _ _ hchain
          intro l2 hl2
          rw [hlast] at hl2
          cases hl2
          exact postLe_false_iff.mp (Bool.eq_false_iff.mpr hle)
        · rw [h]
          exact hchain

/-- Witness for claim C5 at a concrete rejected append on store1. -/
theorem c5_witness :
    (postsOf store1 (0, 0)).getLast? = some "50" ∧
    postLe "30" "50" = true ∧
    store1.addPost 0 0 "30" =
      { store1 with diags := store1.diags ++ [StoreDiag.nonMonotonic "30" "50"] } ∧
    strictIncrB (postsOf store1 (0, 0)) = true ∧
    strictIncrB (postsOf (store1.addPost 0 0 "30") (0, 0)) = true :=
  ⟨by decide, by decide,
   (c5_monotonicity store1 0 0 "30" "50").1 (by decide) (by decide),
   by decide,
   (c5_monotonicity store1 0 0 "30" "50").2 (by decide)⟩

/-- Claim C6 counterexample: in the backfilled store6 contact 1 (C)
holds the synthesized placeholder as its only session-1 marker, contact
0 (R) has the real first marker 5, and isFormerContactTo C R returns
true, not false: the placeholder makes C a predecessor of R. -/
theorem c6_counterexample :
    postsOf store6 (1, 0) = [syntheticKey 0] ∧
    isFormerContactTo store6 3 1 0 = some true := by
  decide

/-- Claim C6 amended: between a placeholder contact C and a real
contact R, only the direction R-to-C is false: whenever the first
marker of C is less-or-equal the first marker of R, isFormerContactTo
R C returns false; the opposite direction isFormerContactTo C R
returns true, as the concrete backfilled store6 shows. -/
theorem c6_amended :
    (∀ (st : Store) (fuel r c : Nat) (rf cf : String),
      (postsOf st (r, 0)).head? = some rf →
      (postsOf st (c, 0)).head? = some cf →
      postLe cf rf = true →
      isFormerContactTo st fuel r c = some false) ∧
    isFormerContactTo store6 3 1 0 = some true := by
  constructor
  · intro st fuel r c rf cf hr hc hle
    simp only [isFormerContactTo, hr, hc]
    rw [if_pos hle]
  · decide

/-- Witness for the amended claim C6 on the concrete store6. -/
theorem c6_amended_witness :
    (postsOf store6 (0, 0)).head? = some "5" ∧
    (postsOf store6 (1, 0)).head? = some (syntheticKey 0) ∧
    postLe (syntheticKey 0) "5" = true ∧
    isFormerContactTo store6 3 0 1 = some false :=
  ⟨by decide, by decide, by decide,
   c6_amended.1 store6 3 0 1 "5" (syntheticKey 0) (by decide) (by decide) (by decide)⟩

theorem postsOf_empty_of_contacts_le (st : Store) (r : Ref)
    (h : st.contacts.length ≤ r.1) : postsOf st r = [] := by
  simp only [postsOf]
  rw [listGetD_of_len_le _ _ _ h]
  rfl

theorem postsOf_empty_of_sessions_le (st : Store) (r : Ref)
    (h : (st.contacts.getD r.1 []).length ≤ r.2) : postsOf st r = [] := by
  simp only [postsOf]
  rw [listGetD_of_len_le _ _ _ h]

theorem postsOf_valid {st : Store} {r : Ref} (h : postsOf st r ≠ []) :
    r.1 < st.contacts.length ∧ r.2 < (st.contacts.getD r.1 []).length := by
  constructor
  · by_contra hc
    exact h (postsOf_empty_of_contacts_le st r (le_of_not_lt hc))
  · by_contra hc
    exact h (postsOf_empty_of_sessions_le st r (le_of_not_lt hc))

theorem mem_lookupIndex_posts {st : Store} (hwf : WF st) {p : String} {r : Ref}
    (h : r ∈ lookupIndex st p) : p ∈ postsOf st r := by
  unfold lookupIndex at h
  cases hf : st.index.find? (fun e => e.1 == p) with
  | none =>
    rw [hf] at h
    simp at h
  | some e =>
    rw [hf] at h
    have hmem : e ∈ st.index := List.mem_of_find?_eq_some hf
    have hkey : e.1 = p := by
      have := List.find?_some hf
      simpa using this
    rw [← hkey]
    exact hwf.1 e hmem r h

theorem mem_lookup_of_mem_posts {st : Store} (hwf : WF st) {r : Ref} {p : String}
    (hne : postsOf st r ≠ []) (hp : p ∈ postsOf st r) : r ∈ lookupIndex st p := by
  obtain ⟨hc, hi⟩ := postsOf_valid hne
  exact hwf.2 r.1 hc r.2 hi p hp

theorem lookup_entry {st : Store} {p : String} (h : lookupIndex st p ≠ []) :
    ∃ e ∈ st.index, e.1 = p := by
  unfold lookupIndex at h
  cases hf : st.index.find? (fun e => e.1 == p) with
  | none =>
    rw [hf] at h
    exact absurd rfl h
  | some e =>
    refine ⟨e, List.mem_of_find?_eq_some hf, ?_⟩
    have := List.find?_some hf
    simpa using this

theorem ne_nil_of_mem {γ : Type} {l : List γ} {x : γ} (h : x ∈ l) : l ≠ [] := by
  intro hc
  rw [hc] at h
  simp at h

theorem phaseA_some (st : Store) (hwf : WF st) :
    ∀ (fuel : Nat) (s : Ref), postsOf st s ≠ [] →
      st.index.countP (fun e => postLt e.1 (firstPostOf st s)) < fuel →
      ∃ sA, phaseA st fuel s = some sA ∧ postsOf st sA ≠ [] := by
  intro fuel
  induction fuel with
  | zero =>
    intro s _ hc
    omega
  | succ n ih =>
    intro s hne hcount
    have hfp : firstPostOf st s ∈ postsOf st s := headD_mem _ hne
    have hs : s ∈ lookupIndex st (firstPostOf st s) := mem_lookup_of_mem_posts hwf hne hfp
    have hlook : lookupIndex st (firstPostOf st s) ≠ [] := ne_nil_of_mem hs
    obtain ⟨next, hargm⟩ := argminBy_some (firstPostOf st) hlook
    have hnextmem : next ∈ lookupIndex st (firstPostOf st s) := argminBy_mem _ hargm
    have hfpnext : firstPostOf st s ∈ postsOf st next := mem_lookupIndex_posts hwf hnextmem
    have hnextne : postsOf st next ≠ [] := ne_nil_of_mem hfpnext
    simp only [phaseA, hargm]
    by_cases hlt : postLt (firstPostOf st next) (firstPostOf st s) = true
    · rw [if_pos hlt]
      apply ih next hnextne
      have hfpn : firstPostOf st next ∈ postsOf st next := headD_mem _ hnextne
      have hnextlook : next ∈ lookupIndex st (firstPostOf st next) :=
        mem_lookup_of_mem_posts hwf hnextne hfpn
      obtain ⟨e, hemem, hekey⟩ := lookup_entry (ne_nil_of_mem hnextlook)
      have hdec : st.index.countP (fun e2 => postLt e2.1 (firstPostOf st next)) <
          st.index.countP (fun e2 => postLt e2.1 (firstPostOf st s)) := by
        apply countP_lt_countP _ _ st.index
          (fun x _ hx => postLt_trans hx hlt) e hemem
        · rw [hekey]
          exact postLt_irrefl _
        · rw [hekey]
          exact hlt
      omega
    · rw [if_neg hlt]
      exact ⟨s, rfl, hne⟩

theorem stepPost_prevOk {st : Store} {s : SweepState} {p : String}
    (hp : lookupIndex st p ≠ []) (hs : PrevOk st s) : PrevOk st (stepPost st s p) := by
  unfold stepPost
  split
  · split
    · exact hs
    · intro q hq
      simp only [processPost] at hq
      cases hq
      exact hp
  · intro q hq
    simp only [processPost] at hq
    cases hq
    exact hp

theorem foldl_stepPost_prevOk {st : Store} :
    ∀ (l : List String) (s : SweepState), (∀ p ∈ l, lookupIndex st p ≠ []) →
      PrevOk st s → PrevOk st (l.foldl (stepPost st) s)
  | [], _, _, hs => hs
  | p :: t, s, hl, hs =>
    foldl_stepPost_prevOk t (stepPost st s p)
      (fun q hq => hl q (List.mem_cons_of_mem p hq))
      (stepPost_prevOk (hl p (List.mem_cons_self p t)) hs)

theorem stepPost_prevPost_isSome {st : Store} {s : SweepState} {p : String}
    (h : s.prevPost.isSome) : (stepPost st s p).prevPost.isSome := by
  unfold stepPost
  split
  · split
    · exact h
    · simp [processPost]
  · simp [processPost]

theorem foldl_stepPost_isSome {st : Store} :
    ∀ (l : List String) (s : SweepState), s.prevPost.isSome ∨ l ≠ [] →
      ((l.foldl (stepPost st) s).prevPost).isSome
  | [], s, h => by
    rcases h with h | h
    · exact h
    · exact absurd rfl h
  | p :: t, s, _ => by
    apply foldl_stepPost_isSome t (stepPost st s p)
    left
    unfold stepPost
    split
    · split
      · rename_i heq _
        rw [heq]
        rfl
      · simp [processPost]
    · simp [processPost]

theorem phaseB_some (st : Store) (hwf : WF st) :
    ∀ (fuel : Nat) (s : Ref) (state : SweepState), postsOf st s ≠ [] →
      PrevOk st state →
      st.index.countP (fun e => postLt (lastPostOf st s) e.1) < fuel →
      ∃ s1, phaseB st fuel s state = some s1 := by
  intro fuel
  induction fuel with
  | zero =>
    intro s state _ _ hc
    omega
  | succ n ih =>
    intro s state hne hprev hcount
    have hposts : ∀ p ∈ postsOf st s, lookupIndex st p ≠ [] :=
      fun p hp => ne_nil_of_mem (mem_lookup_of_mem_posts hwf hne hp)
    have hprev1 : PrevOk st ((postsOf st s).foldl (stepPost st) state) :=
      foldl_stepPost_prevOk _ _ hposts hprev
    have hsome : (((postsOf st s).foldl (stepPost st) state).prevPost).isSome :=
      foldl_stepPost_isSome _ _ (Or.inr hne)
    obtain ⟨pp, hpp⟩ := Option.isSome_iff_exists.mp hsome
    have hlookpp : lookupIndex st pp ≠ [] := hprev1 pp hpp
    obtain ⟨next, hmax⟩ := argmaxBy_some (lastPostOf st) hlookpp
    have hnextmem : next ∈ lookupIndex st pp := argmaxBy_mem _ hmax
    have hppnext : pp ∈ postsOf st next := mem_lookupIndex_posts hwf hnextmem
    have hnextne : postsOf st next ≠ [] := ne_nil_of_mem hppnext
    simp only [phaseB, hpp, hmax]
    by_cases hle : postLe (lastPostOf st next) (lastPostOf st s) = true
    · rw [if_pos hle]
      exact ⟨_, rfl⟩
    · rw [if_neg hle]
      apply ih next ((postsOf st s).foldl (stepPost st) state) hnextne hprev1
      have hlt : postLt (lastPostOf st s) (lastPostOf st next) = true :=
        postLt_of_not_le (Bool.eq_false_iff.mpr hle)
      have hlastmem : lastPostOf st next ∈ postsOf st next := getLastD_mem _ _ hnextne
      have hnl : next ∈ lookupIndex st (lastPostOf st next) :=
        mem_lookup_of_mem_posts hwf hnextne hlastmem
      obtain ⟨e, hemem, hekey⟩ := lookup_entry (ne_nil_of_mem hnl)
      have hdec : st.index.countP (fun e2 => postLt (lastPostOf st next) e2.1) <
          st.index.countP (fun e2 => postLt (lastPostOf st s) e2.1) := by
        apply countP_lt_countP _ _ st.index
          (fun x _ hx => postLt_trans hlt hx) e hemem
        · rw [hekey]
          exact postLt_irrefl _
        · rw [hekey]
          exact hlt
      omega

theorem phaseB_prevPost_isSome (st : Store) :
    ∀ (fuel : Nat) (s : Ref) (state s1 : SweepState),
      phaseB st fuel s state = some s1 → s1.prevPost.isSome
  | 0, _, _, _, h => by simp [phaseB] at h
  | n + 1, s, state, s1, h => by
    simp only [phaseB] at h
    split at h
    · exact absurd h (by simp)
    · rename_i pp hpp
      split at h
      · exact absurd h (by simp)
      · split at h
        · cases h
          rw [hpp]
          rfl
        · exact phaseB_prevPost_isSome st n _ _ _ h

theorem intervals_len_handleAdded (p : String) (s : SweepState) (c : Nat) :
    s.intervals.length ≤ (handleAdded p s c).intervals.length := by
  unfold handleAdded
  split
  · split <;> simp
  · simp

theorem intervals_len_handleDeleted (s : SweepState) (c : Nat) :
    s.intervals.length ≤ (handleDeleted s c).intervals.length := by
  simp [handleDeleted]

theorem intervals_len_processPost (st : Store) (s : SweepState) (p : String) :
    s.intervals.length ≤ (processPost st s p).intervals.length := by
  simp only [processPost]
  exact le_trans
    (foldl_nat_mono (fun s2 : SweepState => s2.intervals.length) (handleAdded p)
      (fun s2 x => intervals_len_handleAdded p s2 x) _ s)
    (foldl_nat_mono (fun s2 : SweepState => s2.intervals.length) handleDeleted
      (fun s2 x => intervals_len_handleDeleted s2 x) _ _)

theorem intervals_len_stepPost (st : Store) (s : SweepState) (p : String) :
    s.intervals.length ≤ (stepPost st s p).intervals.length := by
  unfold stepPost
  split
  · split
    · exact le_refl _
    · exact intervals_len_processPost st s p
  · exact intervals_len_processPost st s p

theorem intervals_len_phaseB (st : Store) :
    ∀ (fuel : Nat) (s : Ref) (state s1 : SweepState),
      phaseB st fuel s state = some s1 →
      state.intervals.length ≤ s1.intervals.length
  | 0, _, _, _, h => by simp [phaseB] at h
  | n + 1, s, state, s1, h => by
    have hfold : state.intervals.length ≤
        ((postsOf st s).foldl (stepPost st) state).intervals.length :=
      foldl_nat_mono (fun s2 : SweepState => s2.intervals.length) (stepPost st)
        (fun s2 x => intervals_len_stepPost st s2 x) _ state
    simp only [phaseB] at h
    split at h
    · exact absurd h (by simp)
    · split at h
      · exact absurd h (by simp)
      · split at h
        · cases h
          exact hfold
        · exact le_trans hfold (intervals_len_phaseB st n _ _ _ h)

theorem processPost_intervals_ne_nil (st : Store) (s : SweepState) (p : String)
    (hpres : presentAt st p ≠ []) (hsprev : s.prevPresent = []) :
    (processPost st s p).intervals ≠ [] := by
  simp only [processPost, hsprev]
  have hadd : (presentAt st p).filter (fun c => decide (c ∉ ([] : List Nat))) =
      presentAt st p := by
    apply List.filter_eq_self.mpr
    intro a _
    simp
  rw [hadd]
  simp only [List.filter_nil, List.foldl_nil]
  cases hp : presentAt st p with
  | nil => exact absurd hp hpres
  | cons a t =>
    simp only [List.foldl_cons]
    have h1 : (handleAdded p s a).intervals ≠ [] := by
      unfold handleAdded
      split
      · rename_i e hf
        split
        · exact ne_nil_of_mem (List.mem_of_find?_eq_some hf)
        · exact ne_nil_of_mem (List.mem_of_find?_eq_some hf)
      · simp
    have h2 := foldl_nat_mono (fun s2 : SweepState => s2.intervals.length) (handleAdded p)
      (fun s2 x => intervals_len_handleAdded p s2 x) t (handleAdded p s a)
    have h0 : 0 < (handleAdded p s a).intervals.length := List.length_pos.mpr h1
    intro hc
    have hz : (t.foldl (handleAdded p) (handleAdded p s a)).intervals.length = 0 := by
      rw [hc]
      rfl
    omega

/-- Claim C3: on a well-formed Timeline Store, the Reconstructor always
terminates for an anchor present in the index: the backward Phase A
loop stops because each adoption strictly lowers the frontier first
post within the finite set of indexed timestamps, the forward Phase B
loop stops because each adoption strictly raises the frontier last
post, and with fuel exceeding the number of indexed timestamps the
whole reconstruction returns a Conversation. -/
theorem c3_reconstruction_terminates (st : Store) (hwf : WF st) (post : String)
    (hpost : lookupIndex st post ≠ []) (fuel : Nat) (hfuel : st.index.length < fuel) :
    (buildConversationByPost st fuel post).isSome := by
  obtain ⟨s0, hs0⟩ : ∃ s0, (lookupIndex st post).head? = some s0 := by
    cases hl : lookupIndex st post with
    | nil => exact absurd hl hpost
    | cons a t => exact ⟨a, rfl⟩
  have hs0mem : s0 ∈ lookupIndex st post := head?_mem hs0
  have hs0ne : postsOf st s0 ≠ [] := ne_nil_of_mem (mem_lookupIndex_posts hwf hs0mem)
  obtain ⟨sA, hA, hAne⟩ := phaseA_some st hwf fuel s0 hs0ne
    (lt_of_le_of_lt (List.countP_le_length _) hfuel)
  have hinitPrev : PrevOk st SweepState.init := by
    intro p hp
    simp [SweepState.init] at hp
  obtain ⟨s1, hB⟩ := phaseB_some st hwf fuel sA SweepState.init hAne hinitPrev
    (lt_of_le_of_lt (List.countP_le_length _) hfuel)
  have hppS := phaseB_prevPost_isSome st fuel sA SweepState.init s1 hB
  obtain ⟨pp, hpp⟩ := Option.isSome_iff_exists.mp hppS
  have hint : s1.intervals ≠ [] := by
    obtain ⟨n, rfl⟩ : ∃ n, fuel = n + 1 := ⟨fuel - 1, by omega⟩
    cases hposts : postsOf st sA with
    | nil => exact absurd hposts hAne
    | cons p0 rest =>
      have hpres : presentAt st p0 ≠ [] := by
        have hp0 : p0 ∈ postsOf st sA := by
          rw [hposts]
          exact List.mem_cons_self _ _
        have hmem := mem_lookup_of_mem_posts hwf hAne hp0
        apply ne_nil_of_mem (x := sA.1)
        unfold presentAt
        apply mem_nubFirst.mpr
        exact List.mem_map.mpr ⟨sA, hmem, rfl⟩
      have hstep : (stepPost st SweepState.init p0).intervals ≠ [] := by
        show (processPost st SweepState.init p0).intervals ≠ []
        exact processPost_intervals_ne_nil st _ p0 hpres rfl
      have hfold : ((postsOf st sA).foldl (stepPost st) SweepState.init).intervals ≠ [] := by
        rw [hposts, List.foldl_cons]
        have hm := foldl_nat_mono (fun s2 : SweepState => s2.intervals.length) (stepPost st)
          (fun s2 x => intervals_len_stepPost st s2 x) rest (stepPost st SweepState.init p0)
        have h0 : 0 < (stepPost st SweepState.init p0).intervals.length :=
          List.length_pos.mpr hstep
        intro hc
        have hz : (rest.foldl (stepPost st) (stepPost st SweepState.init p0)).intervals.length
            = 0 := by
          rw [hc]
          rfl
        omega
      simp only [phaseB] at hB
      split at hB
      · exact absurd hB (by simp)
      · split at hB
        · exact absurd hB (by simp)
        · split at hB
          · cases hB
            exact hfold
          · have hmono := intervals_len_phaseB st n _ _ _ hB
            have h0 : 0 <
                ((postsOf st sA).foldl (stepPost st) SweepState.init).intervals.length :=
              List.length_pos.mpr hfold
            intro hc
            have hz : s1.intervals.length = 0 := by
              rw [hc]
              rfl
            omega
  have hmap : (s1.intervals.map (fun e => (⟨e.1, e.2.1, (e.2.2).getD pp⟩ : Participant)))
      ≠ [] := by
    intro hc
    rw [List.map_eq_nil_iff] at hc
    exact hint hc
  obtain ⟨conv, hconv⟩ := mkConversation_ne_nil _ hmap
  simp only [buildConversationByPost, hs0, hA, hB, hpp, hconv]
  rfl

/-- Witness for claim C3 on the concrete store1. -/
theorem c3_witness :
    WF store1 ∧ lookupIndex store1 "10" ≠ [] ∧ store1.index.length < 7 ∧
    (buildConversationByPost store1 7 "10").isSome :=
  ⟨by decide, by decide, by decide,
   c3_reconstruction_terminates store1 (by decide) "10" (by decide) 7 (by decide)⟩

/-- Claim C7 counterexample: in store7 the two contacts with blank
first sessions receive, in processing order, the keys 0000-0000000000
and 0000-0000000001: the scheme is monotonically increasing, not
decreasing, as the second key does not sort before the first. -/
theorem c7_counterexample :
    postsOf store7 (0, 0) = [syntheticKey 0] ∧
    postsOf store7 (1, 0) = [syntheticKey 1] ∧
    postLt (syntheticKey 0) (syntheticKey 1) = true ∧
    postLt (syntheticKey 1) (syntheticKey 0) = false := by
  refine ⟨by decide, by decide, by decide, by decide⟩

/-- Claim C7 amended: the post-pass repair synthesizes exactly one
placeholder marker for each contact whose session 1 has no recorded
marker, namely the key built from the number of blank contacts
processed before it; the keys are monotonically increasing in
contact-processing order (given fewer than 10 to the power 10
contacts), and every synthetic key sorts strictly before every string
whose first character is above the digit 0, hence before every real
timestamp. -/
theorem c7_amended :
    (∀ (st : Store) (c : Nat),
      c < st.contacts.length → postsOf st (c, 0) = [] →
      0 < (st.contacts.getD c []).length →
      postsOf (backfill st) (c, 0) = [syntheticKey (blankIdx st c)]) ∧
    (∀ (st : Store) (c1 c2 : Nat),
      c1 < c2 → c2 < st.contacts.length → st.contacts.length ≤ 10 ^ 10 →
      postsOf st (c1, 0) = [] →
      postLt (syntheticKey (blankIdx st c1)) (syntheticKey (blankIdx st c2)) = true) ∧
    (∀ (k : Nat) (t : String), startsAboveZeroB t = true →
      postLt (syntheticKey k) t = true) := by
  refine ⟨?_, ?_, syntheticKey_lt_real⟩
  · intro st c hc hblank hi
    rw [backfill, backfillGo_blank (List.range st.contacts.length) st 0 c
      (List.nodup_range _) (List.mem_range.mpr hc) hblank hc hi]
    rw [takeWhile_range_ne c st.contacts.length hc]
    rw [Nat.zero_add]
    rfl
  · intro st c1 c2 h12 hc2 hbig hb1
    apply syntheticKey_mono
    · unfold blankIdx
      rw [show c2 = c1 + (c2 - c1) from by omega, List.range_add, List.countP_append]
      have hpos : 0 < (List.countP (fun x => decide (postsOf st (x, 0) = []))
          ((List.range (c2 - c1)).map (c1 + ·))) := by
        apply List.countP_pos_iff.mpr
        refine ⟨c1, ?_, by simp [hb1]⟩
        apply List.mem_map.mpr
        exact ⟨0, List.mem_range.mpr (by omega), by omega⟩
      omega
    · calc blankIdx st c2 ≤ (List.range c2).length := List.countP_le_length _
      _ = c2 := List.length_range c2
      _ < 10 ^ 10 := by omega

/-- Witness for the amended claim C7 on the concrete store7base. -/
theorem c7_amended_witness :
    postsOf (backfill store7base) (0, 0) = [syntheticKey (blankIdx store7base 0)] ∧
    postLt (syntheticKey (blankIdx store7base 0)) (syntheticKey (blankIdx store7base 1)) =
      true ∧
    postLt (syntheticKey 7) "5" = true :=
  ⟨c7_amended.1 store7base 0 (by decide) (by decide) (by decide),
   c7_amended.2.1 store7base 0 1 (by decide) (by decide) (by decide) (by decide),
   c7_amended.2.2 7 "5" (by decide)⟩

/-- Claim C10: after the post-pass repair, every contact whose session
list is nonempty has at least one marker in session 1, so the session-1
first-post and last-post reads of the Precedence Classifier (lines
118-119) and of the edge-synthesis loop (lines 342-343) are in bounds:
both head and last of the session-1 marker list exist. -/
theorem c10_session_one_nonempty (st : Store)
    (hsess : ∀ c, c < st.contacts.length → 0 < (st.contacts.getD c []).length) :
    ∀ c, c < st.contacts.length →
      postsOf (backfill st) (c, 0) ≠ [] ∧
      ((postsOf (backfill st) (c, 0)).head?).isSome ∧
      ((postsOf (backfill st) (c, 0)).getLast?).isSome := by
  intro c hc
  have hne : postsOf (backfill st) (c, 0) ≠ [] := by
    by_cases hb : postsOf st (c, 0) = []
    · rw [backfill, backfillGo_blank (List.range st.contacts.length) st 0 c
        (List.nodup_range _) (List.mem_range.mpr hc) hb hc (hsess c hc)]
      simp
    · rw [backfill, backfillGo_nonblank _ _ _ _ hb]
      exact hb
  refine ⟨hne, ?_, ?_⟩
  · cases hl : postsOf (backfill st) (c, 0) with
    | nil => exact absurd hl hne
    | cons a t => simp
  · cases hl : postsOf (backfill st) (c, 0) with
    | nil => exact absurd hl hne
    | cons a t => simp [List.getLast?_isSome]

/-- Witness for claim C10 on the concrete store6base. -/
theorem c10_witness :
    postsOf (backfill store6base) (1, 0) ≠ [] ∧
    ((postsOf (backfill store6base) (1, 0)).head?).isSome ∧
    ((postsOf (backfill store6base) (1, 0)).getLast?).isSome :=
  c10_session_one_nonempty store6base (by decide) 1 (by decide)

/-- Claim C8: the event loop tests the retained tags against the
misspelt literal InvitatationResponse (line 299), so a real
InvitationResponse element is skipped entirely: on the failing stream
c8events the code leaves session 2 empty, while the rule set of the
spec (modelled with the correct spelling) commits its timestamp as the
first marker of session 2 by rule 3. -/
theorem c8_invitation_response_dropped :
    postsOf (ingestContact (mkStore [0] []) 0 c8events) (0, 1) = [] ∧
    postsOf (ingestContactSpec (mkStore [0] []) 0 c8events) (0, 1) = ["20"] := by
  decide

theorem find?_map_interval (g : Nat × String × Option String → Nat × String × Option String)
    (hg : ∀ e, (g e).1 = e.1) (c : Nat) :
    ∀ l : List (Nat × String × Option String),
      (l.map g).find? (fun e => e.1 == c) = (l.find? (fun e => e.1 == c)).map g
  | [] => rfl
  | e :: t => by
    simp only [List.map_cons, List.find?]
    rw [hg e]
    cases hc : (e.1 == c) with
    | true => rfl
    | false => exact find?_map_interval g hg c t

theorem intervalOf_handleAdded (p : String) (s : SweepState) (c2 c : Nat)
    (f l : String) (h : intervalOf s c = some (f, some l)) :
    intervalOf (handleAdded p s c2) c = some (f, some l) := by
  unfold handleAdded
  split
  · split
    · exact h
    · exact h
  · simp only [intervalOf] at h ⊢
    cases hq : s.intervals.find? (fun e => e.1 == c) with
    | none => rw [hq] at h; simp at h
    | some e =>
      rw [hq] at h
      rw [find?_append_of_some _ _ _ _ hq]
      exact h

theorem intervalOf_handleDeleted (s : SweepState) (c2 c : Nat)
    (f l : String) (h : intervalOf s c = some (f, some l)) :
    intervalOf (handleDeleted s c2) c = some (f, some l) := by
  simp only [handleDeleted, intervalOf] at h ⊢
  rw [find?_map_interval _ (fun e => by split <;> rfl) c]
  cases hq : s.intervals.find? (fun e => e.1 == c) with
  | none => rw [hq] at h; simp at h
  | some e =>
    rw [hq] at h
    have he : e.2 = (f, some l) := by simpa using h
    have hge : (if e.1 = c2 ∧ e.2.2 = none then (e.1, e.2.1, s.prevPost) else e) = e := by
      rw [if_neg]
      rintro ⟨_, h2⟩
      rw [he] at h2
      simp at h2
    show some ((if e.1 = c2 ∧ e.2.2 = none then (e.1, e.2.1, s.prevPost) else e).2) =
      some (f, some l)
    rw [hge, he]

theorem intervalOf_processPost (st : Store) (s : SweepState) (p : String) (c : Nat)
    (f l : String) (h : intervalOf s c = some (f, some l)) :
    intervalOf (processPost st s p) c = some (f, some l) := by
  simp only [processPost]
  exact foldl_preserves (fun s3 => intervalOf s3 c = some (f, some l)) handleDeleted
    (fun s3 x hx => intervalOf_handleDeleted s3 x c f l hx) _ _
    (foldl_preserves (fun s3 => intervalOf s3 c = some (f, some l)) (handleAdded p)
      (fun s3 x hx => intervalOf_handleAdded p s3 x c f l hx) _ _ h)

theorem intervalOf_stepPost (st : Store) (s : SweepState) (p : String) (c : Nat)
    (f l : String) (h : intervalOf s c = some (f, some l)) :
    intervalOf (stepPost st s p) c = some (f, some l) := by
  unfold stepPost
  split
  · split
    · exact h
    · exact intervalOf_processPost st s p c f l h
  · exact intervalOf_processPost st s p c f l h

theorem diagInv_init : DiagInv SweepState.init := by
  intro c
  simp [SweepState.init, DiagInv]

theorem diagInv_handleAdded (p : String) (c2 : Nat) (s : SweepState) (h : DiagInv s) :
    DiagInv (handleAdded p s c2) := by
  unfold handleAdded
  split
  · split
    · exact h
    · rename_i hw
      intro c
      simp only [List.count_append]
      by_cases hc : c = c2
      · subst hc
        rw [h c, if_neg hw, if_pos (by simp)]
        simp
      · rw [h c]
        by_cases hw2 : c ∈ s.warned
        · rw [if_pos hw2, if_pos (by simp [hw2])]
          simp [List.count_cons, hc]
        · rw [if_neg hw2, if_neg (by simp [hw2, hc])]
          simp [List.count_cons, hc]
  · exact h

theorem diagInv_handleDeleted (c2 : Nat) (s : SweepState) (h : DiagInv s) :
    DiagInv (handleDeleted s c2) := h

theorem diagInv_processPost (st : Store) (p : String) (s : SweepState) (h : DiagInv s) :
    DiagInv (processPost st s p) := by
  simp only [processPost]
  exact foldl_preserves DiagInv handleDeleted (fun s3 x hx => diagInv_handleDeleted x s3 hx) _ _
    (foldl_preserves DiagInv (handleAdded p) (fun s3 x hx => diagInv_handleAdded p x s3 hx) _ _ h)

theorem diagInv_stepPost (st : Store) (p : String) (s : SweepState) (h : DiagInv s) :
    DiagInv (stepPost st s p) := by
  unfold stepPost
  split
  · split
    · exact h
    · exact diagInv_processPost st p s h
  · exact diagInv_processPost st p s h

theorem diagInv_phaseB (st : Store) : ∀ (fuel : Nat) (sA : Ref) (s0 s1 : SweepState),
    phaseB st fuel sA s0 = some s1 → DiagInv s0 → DiagInv s1
  | 0, _, _, _, h, _ => by simp [phaseB] at h
  | fuel + 1, sA, s0, s1, h, hd => by
    simp only [phaseB] at h
    have hd1 : DiagInv ((postsOf st sA).foldl (stepPost st) s0) :=
      foldl_preserves DiagInv (stepPost st) (fun s p hp => diagInv_stepPost st p s hp) _ s0 hd
    split at h
    · exact absurd h (by simp)
    · split at h
      · exact absurd h (by simp)
      · split at h
        · cases h
          exact hd1
        · exact diagInv_phaseB st fuel _ _ _ h hd1

theorem build_reDiags (st : Store) (fuel : Nat) (post : String)
    (res : Conversation × List Nat) (h : buildConversationByPost st fuel post = some res) :
    ∃ (sA : Ref) (s1 : SweepState),
      phaseB st fuel sA SweepState.init = some s1 ∧ res.2 = s1.reDiags := by
  simp only [buildConversationByPost] at h
  split at h
  · exact absurd h (by simp)
  · split at h
    · exact absurd h (by simp)
    · split at h
      · exact absurd h (by simp)
      · split at h
        · exact absurd h (by simp)
        · split at h
          · exact absurd h (by simp)
          · cases h
            exact ⟨_, _, by assumption, rfl⟩

/-- Claim C4: re-entry handling.  First, a closed interval is never
reopened or extended: every sweep step preserves a recorded interval
that already has a lastPost, so all markers of a re-entering contact
after its interval closed have no effect on it.  Second, within one
reconstruction at most one re-entry diagnostic is emitted per contact.
Third, concretely, a contact whose interval closed at 40 and who posts
again at 60 keeps the closed interval (20, 40) and produces exactly one
diagnostic. -/
theorem c4_reentry_ignored :
    (∀ (st : Store) (s : SweepState) (p : String) (c : Nat) (f l : String),
      intervalOf s c = some (f, some l) →
      intervalOf (stepPost st s p) c = some (f, some l)) ∧
    (∀ (st : Store) (fuel : Nat) (post : String) (res : Conversation × List Nat),
      buildConversationByPost st fuel post = some res → ∀ c : Nat, res.2.count c ≤ 1) ∧
    buildConversationByPost store4 5 "10" =
      some (⟨[⟨0, "10", "70"⟩, ⟨1, "20", "40"⟩], "10", "70"⟩, [1]) := by
  refine ⟨intervalOf_stepPost, ?_, by decide⟩
  intro st fuel post res h c
  obtain ⟨sA, s1, hB, hres⟩ := build_reDiags st fuel post res h
  rw [hres, diagInv_phaseB st fuel sA SweepState.init s1 hB diagInv_init c]
  split <;> simp

/-- Witness for claim C4 at concrete inputs on store4. -/
theorem c4_witness :
    intervalOf (stepPost store4 ⟨[(1, ("20", some "40"))], [], [], [0], some "50"⟩ "60") 1 =
      some ("20", some "40") ∧
    (([1] : List Nat).count 1 ≤ 1) :=
  ⟨c4_reentry_ignored.1 store4 ⟨[(1, ("20", some "40"))], [], [], [0], some "50"⟩ "60" 1
      "20" "40" (by decide),
   c4_reentry_ignored.2.1 store4 5 "10"
      (⟨[⟨0, "10", "70"⟩, ⟨1, "20", "40"⟩], "10", "70"⟩, [1]) (by decide) 1⟩

/-- Claim C9: the emitted edge color equals the evaluation of the four
rules in fixed priority order, later rules overriding earlier ones
(green over blue over black over gray), and in particular for A with
interval (100, 200) and predecessor B with interval (150, 250) in a
conversation starting at 100 the resulting color is black. -/
theorem c9_color_priority :
    (∀ firstB lastB firstA lastA convoFirst : String,
      edgeColor firstB lastB firstA lastA convoFirst =
        edgeColorPriority firstB lastB firstA lastA convoFirst) ∧
    edgeColor "150" "250" "100" "200" "100" = Color.black := by
  exact ⟨fun _ _ _ _ _ => rfl, by decide⟩

end MsnGraph
